import Mathlib

set_option maxRecDepth 8192

/-!
Verification development for the LuaInTheWeb automation-script repository.

The repository has two kinds of code covered here:

* The path access-policy engine (PatternStore, PathNormalizer, PatternMatcher,
  PolicyEngine) is described in the design document but its implementation file
  is not part of the source tree that was provided; it is modelled here from
  the design document, each such definition carrying a doc comment that starts
  with "Modelled from the spec:".
* The helper modules scripts/lib/helpers.py (slugify),
  scripts/lib/visual_verification.py (parse_visual_verification) and
  scripts/lib/manual_testing.py (FILE_PATTERNS, categorize_file) are embedded
  directly from their Python source.

Strings are modelled as Lean String values; most computation is done on the
underlying character lists.
-/

/-- Whitespace test for a character, mirroring the ASCII subset of the Python
regex class backslash-s and of str.strip: space, tab, newline, carriage
return, vertical tab and form feed. -/
def isSpaceC (c : Char) : Bool :=
  c == ' ' || c == '\t' || c == '\n' || c == '\r' || c == '\x0b' || c == '\x0c'

/-- Separator conversion of one character: a backslash becomes a forward
slash, everything else is unchanged. -/
def sepC (c : Char) : Char :=
  if c = '\\' then '/' else c

/-- Separator conversion of a character list, mirroring the Python expression
path.replace with a backslash argument and a slash replacement. -/
def convSepC (l : List Char) : List Char :=
  l.map sepC

/-- Python strip: remove leading and trailing whitespace characters. -/
def trimC (l : List Char) : List Char :=
  ((l.dropWhile isSpaceC).reverse.dropWhile isSpaceC).reverse

/-- Split a character list on one separator character, keeping empty pieces,
mirroring the Python expression str.split with a one-character argument. -/
def splitChar (sep : Char) : List Char → List (List Char)
  | [] => [[]]
  | c :: cs =>
    if c = sep then [] :: splitChar sep cs
    else
      match splitChar sep cs with
      | [] => [[c]]
      | h :: t => (c :: h) :: t

/-- Split a character list on the slash character, keeping empty pieces. -/
def splitSlash (l : List Char) : List (List Char) :=
  splitChar '/' l

/-- Nonempty slash-separated components of a character list. -/
def components (l : List Char) : List (List Char) :=
  (splitSlash l).filter (fun e => !e.isEmpty)

/-- Join a list of components with slash separators. -/
def joinComps : List (List Char) → List Char
  | [] => []
  | [x] => x
  | x :: xs => x ++ '/' :: joinComps xs

/-- Length of the longest common leading run of two component lists. -/
def cpl : List (List Char) → List (List Char) → Nat
  | x :: xs, y :: ys => if x = y then cpl xs ys + 1 else 0
  | _, _ => 0

/-- The two-character parent-directory component. -/
def dotdot : List Char := ['.', '.']

/-- Boolean test that a list is a leading run of another list. -/
def hasPre : List Char → List Char → Bool
  | [], _ => true
  | _ :: _, [] => false
  | a :: as, b :: bs => a == b && hasPre as bs

/-- Boolean test that a list is a trailing run of another list. -/
def hasSuf (p l : List Char) : Bool :=
  hasPre p.reverse l.reverse

/-- Boolean test that a list occurs contiguously inside another list. -/
def containsSub : List Char → List Char → Bool
  | l, p =>
    hasPre p l ||
      match l with
      | [] => false
      | _ :: cs => containsSub cs p

/-- Strip one trailing slash from a character list, if present. -/
def stripTrailSlash (t : List Char) : List Char :=
  if t.getLast? == some '/' then t.dropLast else t

/-- Strip one leading slash from a character list, if present. -/
def stripLeadSlash (t : List Char) : List Char :=
  match t with
  | '/' :: rest => rest
  | _ => t

/-- Scan of a shell glob character class body: collect the member characters
up to the closing bracket, returning the members and the remainder of the
pattern; none when the class is not closed. -/
def classSpan : List Char → Option (List Char × List Char)
  | [] => none
  | ']' :: rest => some ([], rest)
  | c :: rest =>
    match classSpan rest with
    | some (cls, r) => some (c :: cls, r)
    | none => none

/-- Interpretation of a shell glob character class after an opening bracket:
an optional leading exclamation mark negates the class, and a closing
bracket placed first is a literal member. Returns the negation flag, the
member run and the remainder of the pattern. -/
def splitClass (l : List Char) : Option (Bool × List Char × List Char) :=
  let negStripped : Bool × List Char :=
    match l with
    | '!' :: t => (true, t)
    | _ => (false, l)
  match negStripped.2 with
  | ']' :: t =>
    (match classSpan t with
     | some (cls, r) => some (negStripped.1, ']' :: cls, r)
     | none => none)
  | other =>
    (match classSpan other with
     | some (cls, r) => some (negStripped.1, cls, r)
     | none => none)

/-- Membership of a character in a glob character-class member run, with
shell range semantics: a dash between two members denotes an inclusive
range, and a dash in final position is literal. -/
def classHas : List Char → Char → Bool
  | [], _ => false
  | a :: '-' :: b :: rest, c =>
    (decide (a ≤ c) && decide (c ≤ b)) || classHas rest c
  | a :: rest, c => a == c || classHas rest c

/-- Candidate remainders reachable from a string position by letting a glob
star consume characters: the star may consume any run of characters that
does not contain a slash, since shell-style wildcards do not cross path
separators. -/
def starTails : List Char → List (List Char)
  | [] => [[]]
  | c :: cs => (c :: cs) :: (if c = '/' then [] else starTails cs)

/-- Fuel-indexed shell-style glob matcher over character lists: star and
question mark do not match the slash separator, bracket classes follow
shell semantics, an unclosed bracket is a literal character. The fuel only
bounds recursion depth; globMatch supplies enough fuel for any pattern. -/
def globMatchF : Nat → List Char → List Char → Bool
  | 0, _, _ => false
  | _ + 1, [], s => s.isEmpty
  | f + 1, '*' :: ps, s => (starTails s).any (globMatchF f ps)
  | f + 1, '?' :: ps, s =>
    (match s with
     | c :: cs => !(c == '/') && globMatchF f ps cs
     | [] => false)
  | f + 1, '[' :: ps, s =>
    (match splitClass ps, s with
     | some (neg, cls, rest), c :: cs =>
       !(c == '/') && (classHas cls c != neg) && globMatchF f rest cs
     | none, c :: cs => ('[' == c) && globMatchF f ps cs
     | _, [] => false)
  | f + 1, p :: ps, s =>
    (match s with
     | c :: cs => (p == c) && globMatchF f ps cs
     | [] => false)

/-- Shell-style glob match of a pattern against a whole string. -/
def globMatch (pat s : List Char) : Bool :=
  globMatchF (pat.length + 1) pat s

/-- Split a character list on the two-character star-star sequence,
left-to-right and non-overlapping, mirroring the Python expression
str.split with a star-star argument. -/
def splitSS : List Char → List (List Char)
  | [] => [[]]
  | '*' :: '*' :: rest => [] :: splitSS rest
  | c :: cs =>
    match splitSS cs with
    | [] => [[c]]
    | h :: t => (c :: h) :: t

/-- Cumulative leading joins of a component list: for each leading run of
pieces, the pieces joined by slashes. -/
def leadJoins : List (List Char) → List (List Char)
  | [] => []
  | s :: ss => s :: (leadJoins ss).map (fun t => s ++ '/' :: t)

namespace PolicyEngine

/-- Modelled from the spec: the Allow or Block outcome of one policy
evaluation. -/
inductive Action where
  | allow
  | block
deriving DecidableEq, Repr

/-- Modelled from the spec: a Decision record with an action, a
human-readable reason and the optional matched pattern. -/
structure Decision where
  action : Action
  reason : String
  matchedPattern : Option String
deriving DecidableEq, Repr

/-- Modelled from the spec: the relative location of a resolved component
list with respect to the root component list, as in os.path.relpath: one
parent-directory component for each root component past the common leading
run, followed by the remaining path components. -/
def relFromComps (ac rc : List (List Char)) : List (List Char) :=
  List.replicate (rc.length - cpl ac rc) dotdot ++ ac.drop (cpl ac rc)

/-- Modelled from the spec: the component list of the project root after
separator conversion. -/
def rcOf (r : List Char) : List (List Char) :=
  components (convSepC r)

/-- Modelled from the spec: the component list of the input path after
separator conversion and resolution to an absolute location. The request
working directory is the project root, so a relative input (one that does
not start with a slash) is resolved against the project root. -/
def acOf (p r : List Char) : List (List Char) :=
  if (convSepC p).head? = some '/' then components (convSepC p)
  else rcOf r ++ components (convSepC p)

/-- Modelled from the spec: PathNormalizer.normalize on character lists.
Separators are converted to forward slashes, the path is resolved to an
absolute location, its location relative to the project root is computed,
and the result is joined with forward slashes (a path equal to the root
becomes the one-dot path). -/
def normalizeC (p r : List Char) : List Char :=
  if (relFromComps (acOf p r) (rcOf r)).isEmpty then ['.']
  else joinComps (relFromComps (acOf p r) (rcOf r))

/-- Modelled from the spec: PathNormalizer.normalize, canonicalizing a path
into a forward-slash path relative to the project root. -/
def normalize (path projectRoot : String) : String :=
  ⟨normalizeC path.data projectRoot.data⟩

/-- Modelled from the spec: separator conversion on strings, the fallback
transformation the normalizer always applies. -/
def convSep (s : String) : String :=
  ⟨convSepC s.data⟩

/-- Modelled from the spec: PatternStore.load. The optional argument is the
text of the pattern source, none when the source file is absent (or
unreadable, which the store treats identically). Lines are trimmed; empty
lines and lines whose first non-whitespace character is a hash mark are
skipped; one trailing slash is stripped from each stored pattern. -/
def load (contents : Option String) : List String :=
  match contents with
  | none => []
  | some text =>
    (splitChar '\n' text.data).filterMap fun line =>
      let t := trimC line
      if t.isEmpty || t.head? == some '#' then none
      else some ⟨stripTrailSlash t⟩

/-- Modelled from the spec: one pattern of PatternMatcher.match applied to a
normalized path, on character lists. A pattern containing the star-star
sequence is handled exclusively by the explicit-globstar strategy: its
start part (trailing slash stripped) must be a literal leading run of the
path and its end part (leading slash stripped) is compared as literal text,
as a suffix, as a slash-delimited interior segment or as a slash-prefixed
suffix; the spec's worked examples (a star-star pattern not blocking an
ordinary matching path, and a one-star pattern not crossing a separator)
pin this exclusive treatment and the non-separator-crossing wildcards.
Other patterns try, in order: exact or directory-leading-run match,
whole-path shell glob, and shell glob against each cumulative leading
slash-join of the path segments. -/
def matchesPatternC (path pat : List Char) : Bool :=
  if containsSub pat ['*', '*'] then
    match splitSS pat with
    | [s, e] =>
      let s' := stripTrailSlash s
      let e' := stripLeadSlash e
      (s'.isEmpty || hasPre s' path) &&
        (e'.isEmpty || hasSuf e' path ||
          containsSub path ('/' :: (e' ++ ['/'])) ||
          hasSuf ('/' :: e') path)
    | _ => false
  else
    (path == pat || hasPre (pat ++ ['/']) path) ||
      globMatch pat path ||
      (leadJoins (splitSlash path)).any (fun pref => globMatch pat pref)

/-- Modelled from the spec: one pattern of PatternMatcher.match applied to a
normalized path. -/
def matchesPattern (path pat : String) : Bool :=
  matchesPatternC path.data pat.data

/-- Modelled from the spec: PatternMatcher.match over a pattern set,
returning the first matching pattern; any single match suffices to block,
patterns being combined by logical OR. -/
def matchFirst (path : String) (patterns : List String) : Option String :=
  patterns.find? (fun pat => matchesPattern path pat)

/-- Modelled from the spec: PolicyEngine.decide given an already-loaded
pattern set. Tools other than Read, Edit and Write pass through as Allow;
an Edit or Write request whose normalized path identifies the pattern
source itself is blocked unconditionally before any pattern logic; then
the matcher result decides, an empty or unmatched set allowing. -/
def decideWith (toolName filePath projectRoot sourcePath : String)
    (patterns : List String) : Decision :=
  if !(toolName == "Read" || toolName == "Edit" || toolName == "Write") then
    ⟨.allow, "tool is not guarded", none⟩
  else
    let np := normalize filePath projectRoot
    if (toolName == "Edit" || toolName == "Write") &&
        np == normalize sourcePath projectRoot then
      ⟨.block, "pattern source is protected from modification", none⟩
    else
      match matchFirst np patterns with
      | some pat => ⟨.block, np ++ " matches pattern " ++ pat, some pat⟩
      | none => ⟨.allow, "no pattern matched", none⟩

/-- Modelled from the spec: PolicyEngine.decide. The pattern set is loaded
from the optional pattern-source contents at the start of every decision. -/
def decide (toolName filePath projectRoot sourcePath : String)
    (contents : Option String) : Decision :=
  decideWith toolName filePath projectRoot sourcePath (load contents)

end PolicyEngine

/-- The uppercase-to-lowercase pairs of the ASCII alphabet. -/
def upperLower : List (Char × Char) :=
  [('A', 'a'), ('B', 'b'), ('C', 'c'), ('D', 'd'), ('E', 'e'), ('F', 'f'),
   ('G', 'g'), ('H', 'h'), ('I', 'i'), ('J', 'j'), ('K', 'k'), ('L', 'l'),
   ('M', 'm'), ('N', 'n'), ('O', 'o'), ('P', 'p'), ('Q', 'q'), ('R', 'r'),
   ('S', 's'), ('T', 't'), ('U', 'u'), ('V', 'v'), ('W', 'w'), ('X', 'x'),
   ('Y', 'y'), ('Z', 'z')]

/-- Lowercase conversion of one ASCII character, mirroring Python str.lower
and the re.IGNORECASE flag on the ASCII range used by the scripts. -/
def toLowerChar (c : Char) : Char :=
  match upperLower.find? (fun p => p.1 == c) with
  | some p => p.2
  | none => c

/-- Membership in the regex class of lowercase ASCII letters and decimal
digits used by slugify. -/
def alnumLower (c : Char) : Bool :=
  (decide ('a' ≤ c) && decide (c ≤ 'z')) ||
    (decide ('0' ≤ c) && decide (c ≤ '9'))

/-- Replacement of each maximal run of characters outside lowercase letters
and digits by a single hyphen, mirroring the re.sub step of slugify; the
flag records that the previous character belonged to such a run. -/
def collapseRuns : List Char → Bool → List Char
  | [], _ => []
  | c :: cs, inRun =>
    if alnumLower c then c :: collapseRuns cs false
    else if inRun then collapseRuns cs true
    else '-' :: collapseRuns cs true

/-- Right strip of hyphens from a character list. -/
def rtrimHy : List Char → List Char
  | [] => []
  | c :: cs =>
    let r := rtrimHy cs
    if r.isEmpty then (if c = '-' then [] else [c]) else c :: r

/-- Case-insensitive consumption of a lowercase literal from the front of a
list; none when the front does not match. -/
def dropCI : List Char → List Char → Option (List Char)
  | [], l => some l
  | _ :: _, [] => none
  | a :: as, c :: cs => if toLowerChar c = a then dropCI as cs else none

/-- One bracketed tag alternative of the slugify prefix regex: consume the
tag text case-insensitively, require the closing bracket, then drop the
whitespace after it. -/
def tryTag (tag rest : List Char) : Option (List Char) :=
  match dropCI tag rest with
  | some (']' :: r) => some (r.dropWhile isSpaceC)
  | _ => none

/-- Removal of one leading bracketed Tech Debt, Roadmap or BUG tag together
with the whitespace after it, mirroring the first re.sub of slugify in
scripts/lib/helpers.py; a title without such a tag is unchanged. -/
def stripTag (l : List Char) : List Char :=
  match l with
  | '[' :: rest =>
    (match tryTag "tech debt".data rest with
     | some r => r
     | none =>
       match tryTag "roadmap".data rest with
       | some r => r
       | none =>
         match tryTag "bug".data rest with
         | some r => r
         | none => l)
  | _ => l

/-- slugify from scripts/lib/helpers.py (an identical copy lives in
scripts/worktree-create.py): strip a recognized bracketed prefix tag,
lowercase, replace runs of characters outside lowercase letters and digits
with single hyphens, strip hyphens from both ends, truncate to 50
characters. -/
def slugify (title : String) : String :=
  let l := (stripTag title.data).map toLowerChar
  let s := collapseRuns l false
  ⟨(rtrimHy (s.dropWhile (fun c => c == '-'))).take 50⟩

/-- Header consumption for parse_visual_verification in
scripts/lib/visual_verification.py: at the current position, consume two
hash marks, optional whitespace, the word Visual (case-insensitively), at
least one whitespace character, the word Verification, then whitespace up
to and including a newline, mirroring the leading part of the section
regex; the run of whitespace after Verification must contain a newline and
consumption stops after the last newline of that run, as the greedy
whitespace followed by a literal newline backtracks to exactly that point.
Returns the remainder after the header. -/
def matchHeader (l : List Char) : Option (List Char) :=
  match dropCI "##".data l with
  | none => none
  | some l1 =>
    match dropCI "visual".data (l1.dropWhile isSpaceC) with
    | none => none
    | some l3 =>
      match l3 with
      | [] => none
      | c :: _ =>
        if isSpaceC c then
          match dropCI "verification".data (l3.dropWhile isSpaceC) with
          | none => none
          | some l5 =>
            let run := l5.takeWhile isSpaceC
            if run.contains '\n' then
              some ((run.reverse.takeWhile (fun d => !(d == '\n'))).reverse
                ++ l5.drop run.length)
            else none
        else none

/-- Leftmost occurrence of the Visual Verification header in the body,
mirroring re.search: every start position is tried in order. -/
def findHeader (l : List Char) : Option (List Char) :=
  (List.tails l).findSome? matchHeader

/-- Terminator lookahead of the section regex at a line start: optional
whitespace, two hash marks, then one whitespace character. -/
def termAt (l : List Char) : Bool :=
  match l.dropWhile isSpaceC with
  | '#' :: '#' :: c :: _ => isSpaceC c
  | _ => false

/-- Section capture of parse_visual_verification: consume characters until
the terminator lookahead succeeds at a line start, or to the end of the
body; the flag records that the current position is a line start. -/
def captureAux : List Char → Bool → List Char
  | [], _ => []
  | c :: cs, atStart =>
    if atStart && termAt (c :: cs) then []
    else c :: captureAux cs (c == '\n')

/-- Route extraction for one line of the Visual Verification section:
optional whitespace, a dash or asterisk bullet, optional whitespace, then a
slash followed by non-whitespace characters; the captured route is the
slash and the following maximal non-whitespace run. -/
def parseRouteLine (l : List Char) : Option (List Char) :=
  match l.dropWhile isSpaceC with
  | c :: rest =>
    if c = '-' ∨ c = '*' then
      match rest.dropWhile isSpaceC with
      | d :: r2 =>
        if d = '/' then some ('/' :: r2.takeWhile (fun e => !isSpaceC e))
        else none
      | [] => none
    else none
  | [] => none

/-- Removal of one leading bullet from a line, mirroring the note-cleanup
re.sub: optional whitespace, a dash or asterisk, optional whitespace; a
line without a bullet is unchanged. -/
def stripBullet (l : List Char) : List Char :=
  match l.dropWhile isSpaceC with
  | c :: rest => if c = '-' ∨ c = '*' then rest.dropWhile isSpaceC else l
  | [] => l

/-- Note extraction for one line of the Visual Verification section: a line
that is not a route, is nonempty after stripping, and does not start with a
hash mark yields its bullet-stripped trimmed text, provided that text is
nonempty and does not start with a slash. -/
def parseNoteLine (l : List Char) : Option (List Char) :=
  if (parseRouteLine l).isSome then none
  else if (trimC l).isEmpty then none
  else if (trimC l).head? == some '#' then none
  else if (trimC (stripBullet l)).isEmpty then none
  else if (trimC (stripBullet l)).head? == some '/' then none
  else some (trimC (stripBullet l))

/-- parse_visual_verification from scripts/lib/visual_verification.py: an
empty body yields none; otherwise the Visual Verification section is
located and captured up to the next section header or the end; an empty
section yields empty route and note lists; otherwise each line of the
section contributes a route or possibly a note. -/
def parse_visual_verification (body : String) :
    Option (List String × List String) :=
  if body.data.isEmpty then none
  else
    match findHeader body.data with
    | none => none
    | some rest =>
      let content := trimC (captureAux rest true)
      if content.isEmpty then some ([], [])
      else
        let lines := splitChar '\n' content
        some
          ((lines.filterMap parseRouteLine).map (fun v => (⟨v⟩ : String)),
           (lines.filterMap parseNoteLine).map (fun v => (⟨v⟩ : String)))

/-- Atom of the regex shapes used by FILE_PATTERNS in
scripts/lib/manual_testing.py: a literal run, a dot-star wildcard (which
cannot cross a newline), or an alternation of literal runs. -/
inductive RAtom where
  | lit (s : List Char)
  | star
  | alts (ss : List (List Char))

/-- Remainders reachable by letting a dot-star consume characters: any run
not containing a newline may be consumed. -/
def starTailsNl : List Char → List (List Char)
  | [] => [[]]
  | c :: cs => (c :: cs) :: (if c = '\n' then [] else starTailsNl cs)

/-- Matching of an atom sequence at a fixed position; the end of the
sequence carries the dollar anchor of every FILE_PATTERNS regex, so the
remainder must be empty there. -/
def matchesFrom : List RAtom → List Char → Bool
  | [], rest => rest.isEmpty
  | .lit s :: as, rest => hasPre s rest && matchesFrom as (rest.drop s.length)
  | .alts ss :: as, rest =>
    ss.any (fun s => hasPre s rest && matchesFrom as (rest.drop s.length))
  | .star :: as, rest => (starTailsNl rest).any (matchesFrom as)

/-- Unanchored search of an atom sequence, mirroring re.search: every
start position is tried. -/
def rsearch (pat : List RAtom) (l : List Char) : Bool :=
  (List.tails l).any (matchesFrom pat)

/-- The test-file regex of FILE_PATTERNS: any name ending in a dot, test or
spec, a dot, and a ts, tsx, js or jsx extension. -/
def patTestFile : List RAtom :=
  [.star, .lit ".".data, .alts ["test".data, "spec".data], .lit ".".data,
   .alts ["ts".data, "tsx".data, "js".data, "jsx".data]]

/-- The end-to-end-test regex of FILE_PATTERNS: an e2e/ directory and a ts
or js extension. -/
def patE2eFile : List RAtom :=
  [.lit "e2e/".data, .star, .lit ".".data, .alts ["ts".data, "js".data]]

/-- The tests-directory regex of FILE_PATTERNS: any path containing a
double-underscore tests directory segment. -/
def patTestsDir : List RAtom :=
  [.star, .lit "__tests__/".data, .star]

/-- The remaining entries of FILE_PATTERNS, in source order: ui components,
hooks, style sheets, pages, config files, rc files, scripts, docs. -/
def restPats : List (List RAtom × String) :=
  [([.lit "src/components/".data, .star, .lit ".tsx".data], "ui"),
   ([.lit "src/hooks/".data, .star, .lit ".ts".data], "interaction"),
   ([.star, .lit ".".data,
     .alts ["css".data, "scss".data, "module.css".data]], "visual"),
   ([.lit "src/pages/".data, .star, .lit ".tsx".data], "page"),
   ([.alts ["vite".data, "tsconfig".data, "eslint".data, "prettier".data,
      "package".data], .star, .lit ".".data,
     .alts ["json".data, "js".data, "ts".data, "cjs".data, "mjs".data]],
    "config"),
   ([.lit ".".data, .alts ["eslintrc".data, "prettierrc".data], .star],
    "config"),
   ([.lit "scripts/".data, .star, .lit ".py".data], "script"),
   ([.star, .lit ".md".data], "docs"),
   ([.lit ".claude/".data, .star], "docs")]

/-- FILE_PATTERNS from scripts/lib/manual_testing.py: the ordered pattern
and category pairs; order matters, the first match wins. -/
def FILE_PATTERNS : List (List RAtom × String) :=
  (patTestFile, "test") :: (patE2eFile, "test") :: (patTestsDir, "test") ::
    restPats

/-- Removal of one final newline, modelling that the dollar anchor of the
Python regexes also matches just before a final newline. -/
def dropFinalNl (l : List Char) : List Char :=
  if l.getLast? == some '\n' then l.dropLast else l

/-- categorize_file from scripts/lib/manual_testing.py: convert separators
to forward slashes, then return the category of the first matching entry
of FILE_PATTERNS, or none; the case-insensitive regex search is modelled
by lowercasing the path against the lowercase patterns. -/
def categorize_file (file_path : String) : Option String :=
  let normalized_path := convSepC file_path.data
  let core := dropFinalNl (normalized_path.map toLowerChar)
  FILE_PATTERNS.findSome? fun pc =>
    if rsearch pc.1 core then some pc.2 else none

section PolicyTheorems

/-- Helper: the action of decideWith, written as a chain of conditions. -/
theorem decideWith_action_eq (tool fp root src : String) (pats : List String) :
    (PolicyEngine.decideWith tool fp root src pats).action =
      if (!(tool == "Read" || tool == "Edit" || tool == "Write")) = true then
        .allow
      else if ((tool == "Edit" || tool == "Write") &&
          (PolicyEngine.normalize fp root ==
            PolicyEngine.normalize src root)) = true then
        .block
      else if (PolicyEngine.matchFirst (PolicyEngine.normalize fp root)
          pats).isSome then .block
      else .allow := by
  unfold PolicyEngine.decideWith
  by_cases h0 : (!(tool == "Read" || tool == "Edit" || tool == "Write")) = true
  · simp [h0]
  · by_cases h1 : ((tool == "Edit" || tool == "Write") &&
        (PolicyEngine.normalize fp root ==
          PolicyEngine.normalize src root)) = true
    · simp [h0, h1]
    · rcases h : PolicyEngine.matchFirst (PolicyEngine.normalize fp root)
        pats with _ | p <;> simp [h0, h1, h]

/-- Helper: the first matching pattern is absent for one list of a
permutation pair exactly when it is absent for the other. -/
theorem matchFirst_perm_none (p : String) {l1 l2 : List String}
    (h : l1.Perm l2) :
    (PolicyEngine.matchFirst p l1 = none) ↔
      (PolicyEngine.matchFirst p l2 = none) := by
  simp only [PolicyEngine.matchFirst, List.find?_eq_none]
  exact ⟨fun H x hx => H x (h.mem_iff.mpr hx),
         fun H x hx => H x (h.mem_iff.mp hx)⟩

/-- C1: for every pattern-source contents (including the empty set) and
every project root, an Edit or Write request whose path normalizes to the
same string as the pattern source is blocked with reason "pattern source is
protected from modification"; no contents of the pattern set can change
this outcome. -/
theorem C1_protected_rule (tool fp root src : String)
    (contents : Option String)
    (htool : tool = "Edit" ∨ tool = "Write")
    (hpath : PolicyEngine.normalize fp root =
      PolicyEngine.normalize src root) :
    PolicyEngine.decide tool fp root src contents =
      ⟨.block, "pattern source is protected from modification", none⟩ := by
  rcases htool with rfl | rfl <;>
    simp [PolicyEngine.decide, PolicyEngine.decideWith, hpath]

/-- Witness for C1 at a concrete input, with a nonempty pattern source. -/
theorem C1_protected_rule_witness :
    ("Edit" = "Edit" ∨ ("Edit" : String) = "Write") ∧
    PolicyEngine.normalize "/r/.ignore" "/r" =
      PolicyEngine.normalize "/r/.ignore" "/r" ∧
    PolicyEngine.decide "Edit" "/r/.ignore" "/r" "/r/.ignore"
        (some "src\n*.log") =
      ⟨.block, "pattern source is protected from modification", none⟩ :=
  ⟨Or.inl rfl, rfl,
    C1_protected_rule "Edit" "/r/.ignore" "/r" "/r/.ignore"
      (some "src\n*.log") (Or.inl rfl) rfl⟩

/-- C2: a missing or empty pattern source loads as the empty pattern set
without an error, and a Read decision on any path then allows: missing
policy data degrades to allow-all. -/
theorem C2_fail_open_empty_source :
    PolicyEngine.load none = [] ∧ PolicyEngine.load (some "") = [] ∧
    ∀ p root src : String,
      (PolicyEngine.decide "Read" p root src none).action = .allow ∧
      (PolicyEngine.decide "Read" p root src (some "")).action = .allow := by
  refine ⟨rfl, by decide, fun p root src => ⟨rfl, rfl⟩⟩

/-- C3: with the pattern set containing only the star-star slash star dot
tmp pattern, the path cache/file.tmp is allowed: the part after the
star-star is compared as the literal text star dot tmp, which is not a
suffix of the path, so the matcher does not block it. -/
theorem C3_globstar_literal_suffix :
    PolicyEngine.matchesPattern "cache/file.tmp" "**/*.tmp" = false ∧
    PolicyEngine.matchFirst "cache/file.tmp" ["**/*.tmp"] = none ∧
    (PolicyEngine.decideWith "Read" "/r/cache/file.tmp" "/r" "/r/.ignore"
      ["**/*.tmp"]).action = .allow ∧
    hasSuf "*.tmp".data "cache/file.tmp".data = false := by decide

/-- C4: with the pattern set containing only star dot log, the whole-path
wildcard blocks app.log but allows logs/app.log, since the shell glob is
applied to the full normalized path and does not cross the separator. -/
theorem C4_whole_path_wildcard :
    PolicyEngine.matchesPattern "app.log" "*.log" = true ∧
    PolicyEngine.matchesPattern "logs/app.log" "*.log" = false ∧
    (PolicyEngine.decideWith "Read" "/r/app.log" "/r" "/r/.ignore"
      ["*.log"]).action = .block ∧
    (PolicyEngine.decideWith "Read" "/r/logs/app.log" "/r" "/r/.ignore"
      ["*.log"]).action = .allow := by decide

/-- C5: for a fixed path and every permutation of the pattern set, the
Allow or Block outcome of the decision is the same: any single matching
pattern suffices to block, so pattern order never changes the outcome. -/
theorem C5_order_independence (tool fp root src : String)
    (l1 l2 : List String) (h : l1.Perm l2) :
    (PolicyEngine.decideWith tool fp root src l1).action =
      (PolicyEngine.decideWith tool fp root src l2).action := by
  rw [decideWith_action_eq, decideWith_action_eq]
  have hnone := matchFirst_perm_none (PolicyEngine.normalize fp root) h
  rcases h1 : PolicyEngine.matchFirst (PolicyEngine.normalize fp root) l1
      with _ | p1 <;>
    rcases h2 : PolicyEngine.matchFirst (PolicyEngine.normalize fp root) l2
      with _ | p2 <;> simp_all

/-- Witness for C5 at a concrete permutation pair. -/
theorem C5_order_independence_witness :
    (["a.txt", "b"] : List String).Perm ["b", "a.txt"] ∧
    (PolicyEngine.decideWith "Read" "a.txt" "/r" "/r/.ignore"
        ["a.txt", "b"]).action =
      (PolicyEngine.decideWith "Read" "a.txt" "/r" "/r/.ignore"
        ["b", "a.txt"]).action :=
  ⟨List.Perm.swap "b" "a.txt" [],
    C5_order_independence "Read" "a.txt" "/r" "/r/.ignore"
      ["a.txt", "b"] ["b", "a.txt"] (List.Perm.swap "b" "a.txt" [])⟩

/-- C6: with the pattern set containing only node_modules, the nested path
packages/app/node_modules/x.js is allowed: the prefix-sequence strategy
tests the pattern only against leading slash-joins of the path, none of
which equals node_modules, and no other strategy matches a bare pattern
against a nested directory of the same name. -/
theorem C6_bare_pattern_nested :
    PolicyEngine.matchesPattern "packages/app/node_modules/x.js"
      "node_modules" = false ∧
    (PolicyEngine.decideWith "Read" "/r/packages/app/node_modules/x.js"
      "/r" "/r/.ignore" ["node_modules"]).action = .allow ∧
    (leadJoins (splitSlash "packages/app/node_modules/x.js".data)).all
      (fun pref => !(globMatch "node_modules".data pref)) = true := by
  decide

end PolicyTheorems

section NormalizeIdem

open PolicyEngine

/-- Helper: separator conversion never produces a backslash. -/
theorem sepC_ne_bs (c : Char) : sepC c ≠ '\\' := by
  unfold sepC
  split
  · decide
  · assumption

/-- Helper: a converted character list contains no backslash. -/
theorem convSepC_no_bs (l : List Char) : '\\' ∉ convSepC l := by
  intro h
  rcases List.mem_map.mp h with ⟨c, _, hc⟩
  exact sepC_ne_bs c hc

/-- Helper: separator conversion fixes a backslash-free list. -/
theorem convSepC_fixed {l : List Char} (h : '\\' ∉ l) : convSepC l = l := by
  induction l with
  | nil => rfl
  | cons c cs ih =>
    have hc : c ≠ '\\' := fun hh => h (by simp [hh])
    have h2 : convSepC cs = cs := ih (fun hm => h (List.mem_cons_of_mem _ hm))
    show sepC c :: convSepC cs = c :: cs
    rw [h2]
    unfold sepC
    rw [if_neg hc]

/-- Helper: the pieces of a character split are nonempty as a list, the
separator occurs in no piece, and every piece character comes from the
input. -/
theorem splitChar_facts (sep : Char) (l : List Char) :
    splitChar sep l ≠ [] ∧
      ∀ e ∈ splitChar sep l, sep ∉ e ∧ ∀ c ∈ e, c ∈ l := by
  induction l with
  | nil =>
    refine ⟨by simp [splitChar], ?_⟩
    intro e he
    simp [splitChar] at he
    simp [he]
  | cons c cs ih =>
    by_cases hc : c = sep
    · refine ⟨by simp [splitChar, if_pos hc], ?_⟩
      intro e he
      simp only [splitChar, if_pos hc] at he
      rcases List.mem_cons.mp he with rfl | hmem
      · simp
      · rcases ih.2 e hmem with ⟨h1, h2⟩
        exact ⟨h1, fun d hd => List.mem_cons_of_mem _ (h2 d hd)⟩
    · rcases hsc : splitChar sep cs with _ | ⟨h, t⟩
      · exact absurd hsc ih.1
      · refine ⟨by simp [splitChar, if_neg hc, hsc], ?_⟩
        intro e he
        simp only [splitChar, if_neg hc, hsc] at he
        rcases List.mem_cons.mp he with rfl | hmem
        · have hh := ih.2 h (by rw [hsc]; exact List.mem_cons_self h t)
          constructor
          · intro hs
            rcases List.mem_cons.mp hs with h1 | h1
            · exact hc h1.symm
            · exact hh.1 h1
          · intro d hd
            rcases List.mem_cons.mp hd with rfl | h1
            · exact List.mem_cons_self d cs
            · exact List.mem_cons_of_mem _ (hh.2 d h1)
        · have hh := ih.2 e (by rw [hsc]; exact List.mem_cons_of_mem h hmem)
          exact ⟨hh.1, fun d hd => List.mem_cons_of_mem _ (hh.2 d hd)⟩

/-- Helper: splitting a separator-free list yields that list alone. -/
theorem splitChar_fixed (sep : Char) :
    ∀ x : List Char, sep ∉ x → splitChar sep x = [x] := by
  intro x
  induction x with
  | nil => intro _; rfl
  | cons a x' ih =>
    intro hx
    have ha : a ≠ sep := fun hh => hx (by simp [hh])
    have h' := ih (fun hm => hx (List.mem_cons_of_mem _ hm))
    simp [splitChar, if_neg ha, h']

/-- Helper: prepending a separator-free run extends the first piece of a
split. -/
theorem splitChar_prepend (sep : Char) :
    ∀ (x l h : List Char) (t : List (List Char)), sep ∉ x →
      splitChar sep l = h :: t →
      splitChar sep (x ++ l) = (x ++ h) :: t := by
  intro x
  induction x with
  | nil =>
    intro l h t _ hl
    simpa using hl
  | cons a x' ih =>
    intro l h t hx hl
    have ha : a ≠ sep := fun hh => hx (by simp [hh])
    have hrec := ih l h t (fun hm => hx (List.mem_cons_of_mem _ hm)) hl
    simp [splitChar, if_neg ha, hrec]

/-- Helper: splitting a slash-join of clean components recovers them. -/
theorem splitSlash_joinComps :
    ∀ L : List (List Char), L ≠ [] → (∀ e ∈ L, e ≠ [] ∧ '/' ∉ e) →
      splitSlash (joinComps L) = L := by
  intro L
  induction L with
  | nil => intro h; exact absurd rfl h
  | cons x xs ih =>
    intro _ hel
    rcases xs with _ | ⟨y, ys⟩
    · have hx := (hel x (List.mem_cons_self x [])).2
      simp only [joinComps, splitSlash]
      exact splitChar_fixed '/' x hx
    · have hx := hel x (List.mem_cons_self x (y :: ys))
      have hys : splitSlash (joinComps (y :: ys)) = y :: ys :=
        ih (by simp) (fun e he => hel e (List.mem_cons_of_mem _ he))
      have hstep : splitChar '/' ('/' :: joinComps (y :: ys)) =
          [] :: y :: ys := by
        have hys' : splitChar '/' (joinComps (y :: ys)) = y :: ys := hys
        simp [splitChar, hys']
      have hpre := splitChar_prepend '/' x ('/' :: joinComps (y :: ys))
        [] (y :: ys) hx.2 hstep
      simp only [joinComps, splitSlash]
      simpa using hpre

/-- Helper: the components of a slash-join of clean components are those
components. -/
theorem components_joinComps
    {L : List (List Char)} (hne : L ≠ [])
    (hel : ∀ e ∈ L, e ≠ [] ∧ '/' ∉ e) :
    components (joinComps L) = L := by
  unfold components
  rw [splitSlash_joinComps L hne hel]
  rw [List.filter_eq_self]
  intro e he
  simpa using (hel e he).1

/-- Helper: every character of a slash-join is a slash or a character of
some component. -/
theorem joinComps_chars :
    ∀ L : List (List Char), ∀ c ∈ joinComps L,
      c = '/' ∨ ∃ e ∈ L, c ∈ e := by
  intro L
  induction L with
  | nil => intro c hc; simp [joinComps] at hc
  | cons x xs ih =>
    intro c hc
    rcases xs with _ | ⟨y, ys⟩
    · exact Or.inr ⟨x, List.mem_cons_self x [], by simpa [joinComps] using hc⟩
    · simp only [joinComps] at hc
      rcases List.mem_append.mp hc with hcx | hcr
      · exact Or.inr ⟨x, List.mem_cons_self x (y :: ys), hcx⟩
      · rcases List.mem_cons.mp hcr with rfl | hcj
        · exact Or.inl rfl
        · rcases ih c hcj with h | ⟨e, he, hce⟩
          · exact Or.inl h
          · exact Or.inr ⟨e, List.mem_cons_of_mem _ he, hce⟩

/-- Helper: the head of a slash-join of a list with a nonempty first
component is the head of that component. -/
theorem joinComps_head (x : List Char) (xs : List (List Char))
    (hx : x ≠ []) : (joinComps (x :: xs)).head? = x.head? := by
  rcases x with _ | ⟨a, x'⟩
  · exact absurd rfl hx
  · rcases xs with _ | ⟨y, ys⟩
    · rfl
    · rfl

/-- Helper: the common-run length of a list against a leading copy of
itself is its length. -/
theorem cpl_append : ∀ b t : List (List Char), cpl (b ++ t) b = b.length := by
  intro b
  induction b with
  | nil => intro t; cases t <;> simp [cpl]
  | cons x xs ih => intro t; simp [cpl, ih]

/-- Helper: the relative location of a root-anchored component list with
respect to the root is the anchored remainder. -/
theorem relFromComps_append (rc L : List (List Char)) :
    relFromComps (rc ++ L) rc = L := by
  unfold relFromComps
  rw [cpl_append]
  simp [List.drop_left]

/-- Helper: facts about the components of any character list: each is
nonempty, slash-free, and made of input characters. -/
theorem components_facts (l : List Char) :
    ∀ e ∈ components l, e ≠ [] ∧ '/' ∉ e ∧ ∀ c ∈ e, c ∈ l := by
  intro e he
  unfold components at he
  have hmem := List.mem_of_mem_filter he
  have hp := List.of_mem_filter he
  have hf := (splitChar_facts '/' l).2 e hmem
  refine ⟨?_, hf.1, hf.2⟩
  simpa using hp

/-- Helper: every piece of the relative-location component list is
nonempty, slash-free and backslash-free. -/
theorem relFromComps_elem_facts (p r : List Char) :
    ∀ e ∈ relFromComps (acOf p r) (rcOf r),
      e ≠ [] ∧ '/' ∉ e ∧ '\\' ∉ e := by
  intro e he
  unfold relFromComps at he
  rcases List.mem_append.mp he with hrep | hdrop
  · have hd := List.eq_of_mem_replicate hrep
    subst hd
    exact ⟨by decide, by decide, by decide⟩
  · have hac : e ∈ acOf p r := List.mem_of_mem_drop hdrop
    have hcomp : e ∈ components (convSepC p) ∨
        e ∈ components (convSepC r) := by
      unfold acOf rcOf at hac
      split at hac
      · exact Or.inl hac
      · rcases List.mem_append.mp hac with h | h
        · exact Or.inr h
        · exact Or.inl h
    rcases hcomp with h | h
    · have hf := components_facts (convSepC p) e h
      exact ⟨hf.1, hf.2.1,
        fun hbs => convSepC_no_bs p (hf.2.2 '\\' hbs)⟩
    · have hf := components_facts (convSepC r) e h
      exact ⟨hf.1, hf.2.1,
        fun hbs => convSepC_no_bs r (hf.2.2 '\\' hbs)⟩

/-- Helper: normalization of character lists is idempotent. -/
theorem normalizeC_idem (p r : List Char) :
    normalizeC (normalizeC p r) r = normalizeC p r := by
  have helems := relFromComps_elem_facts p r
  by_cases hre : (relFromComps (acOf p r) (rcOf r)).isEmpty
  · have h1 : normalizeC p r = ['.'] := by
      unfold normalizeC
      rw [if_pos hre]
    rw [h1]
    unfold normalizeC
    have hcv : convSepC ['.'] = ['.'] := by decide
    have hac : acOf ['.'] r = rcOf r ++ [['.']] := by
      unfold acOf
      rw [hcv]
      rw [if_neg (by decide)]
      rw [show components ['.'] = [['.']] from by decide]
    rw [hac, relFromComps_append]
    simp [joinComps]
  · rcases hrel : relFromComps (acOf p r) (rcOf r) with _ | ⟨x, xs⟩
    · rw [hrel] at hre
      simp at hre
    · have h1 : normalizeC p r = joinComps (x :: xs) := by
        unfold normalizeC
        rw [if_neg (by rw [hrel] at hre ⊢; exact hre)]
        rw [hrel]
      rw [h1]
      have helems' : ∀ e ∈ x :: xs, e ≠ [] ∧ '/' ∉ e ∧ '\\' ∉ e := by
        rw [← hrel]
        exact helems
      have hbs : '\\' ∉ joinComps (x :: xs) := by
        intro hmem
        rcases joinComps_chars (x :: xs) '\\' hmem with h | ⟨e, he, hce⟩
        · exact absurd h (by decide)
        · exact (helems' e he).2.2 hce
      have hcv : convSepC (joinComps (x :: xs)) = joinComps (x :: xs) :=
        convSepC_fixed hbs
      have hhead : ¬ (convSepC (joinComps (x :: xs))).head? = some '/' := by
        rw [hcv]
        rw [joinComps_head x xs (helems' x (List.mem_cons_self x xs)).1]
        rcases x with _ | ⟨a, x'⟩
        · exact absurd rfl (helems' [] (List.mem_cons_self [] xs)).1
        · intro hh
          have ha : a = '/' := by simpa using hh
          exact (helems' (a :: x') (List.mem_cons_self _ xs)).2.1
            (by simp [ha])
      have hcj : components (joinComps (x :: xs)) = x :: xs :=
        components_joinComps (by simp)
          (fun e he => ⟨(helems' e he).1, (helems' e he).2.1⟩)
      have hac : acOf (joinComps (x :: xs)) r = rcOf r ++ (x :: xs) := by
        unfold acOf
        rw [hcv] at hhead ⊢
        rw [if_neg hhead, hcj]
      unfold normalizeC
      rw [hac, relFromComps_append]
      simp

/-- C7: path normalization is idempotent for every input path and project
root; in particular separator conversion fixes an already-converted
string. -/
theorem C7_normalize_idempotent :
    (∀ p r : String,
      PolicyEngine.normalize (PolicyEngine.normalize p r) r =
        PolicyEngine.normalize p r) ∧
    (∀ s : String,
      PolicyEngine.convSep (PolicyEngine.convSep s) =
        PolicyEngine.convSep s) := by
  constructor
  · intro p r
    exact congrArg
      (fun l => (⟨l⟩ : String)) (normalizeC_idem p.data r.data)
  · intro s
    exact congrArg
      (fun l => (⟨l⟩ : String)) (convSepC_fixed (convSepC_no_bs s.data))

end NormalizeIdem

section SlugifyTheorems

/-- Helper: every character emitted by the run-collapse step is a lowercase
letter, a digit, or a hyphen. -/
theorem collapseRuns_chars :
    ∀ (l : List Char) (b : Bool), ∀ c ∈ collapseRuns l b,
      alnumLower c = true ∨ c = '-' := by
  intro l
  induction l with
  | nil =>
    intro b c hc
    simp [collapseRuns] at hc
  | cons d ds ih =>
    intro b c hc
    by_cases hd : alnumLower d = true
    · simp only [collapseRuns, if_pos hd] at hc
      rcases List.mem_cons.mp hc with rfl | h
      · exact Or.inl hd
      · exact ih false c h
    · by_cases hb : b = true
      · simp only [collapseRuns, if_neg hd, hb, if_pos rfl] at hc
        exact ih true c hc
      · have hb' : b = false := by
          cases b
          · rfl
          · exact absurd rfl hb
        simp only [collapseRuns, if_neg hd, hb'] at hc
        simp only [Bool.false_eq_true, if_false] at hc
        rcases List.mem_cons.mp hc with rfl | h
        · exact Or.inr rfl
        · exact ih true c h

/-- Helper: the right hyphen strip keeps only input characters. -/
theorem rtrimHy_subset : ∀ l : List Char, rtrimHy l ⊆ l := by
  intro l
  induction l with
  | nil => simp [rtrimHy]
  | cons c cs ih =>
    intro x hx
    simp only [rtrimHy] at hx
    by_cases hr : (rtrimHy cs).isEmpty = true
    · rw [if_pos hr] at hx
      by_cases hc : c = '-'
      · rw [if_pos hc] at hx
        simp at hx
      · rw [if_neg hc] at hx
        simp at hx
        simp [hx]
    · rw [if_neg hr] at hx
      rcases List.mem_cons.mp hx with rfl | h
      · exact List.mem_cons_self x cs
      · exact List.mem_cons_of_mem _ (ih h)

/-- Helper: the right hyphen strip is empty or keeps the head. -/
theorem rtrimHy_head (l : List Char) :
    rtrimHy l = [] ∨ (rtrimHy l).head? = l.head? := by
  cases l with
  | nil => exact Or.inl rfl
  | cons c cs =>
    simp only [rtrimHy]
    by_cases hr : (rtrimHy cs).isEmpty = true
    · rw [if_pos hr]
      by_cases hc : c = '-'
      · rw [if_pos hc]
        exact Or.inl rfl
      · rw [if_neg hc]
        exact Or.inr rfl
    · rw [if_neg hr]
      exact Or.inr rfl

/-- Helper: the head of a dropWhile result fails the predicate. -/
theorem dropWhile_head_not (p : Char → Bool) :
    ∀ (l : List Char) (c : Char),
      (l.dropWhile p).head? = some c → p c = false := by
  intro l
  induction l with
  | nil =>
    intro c h
    simp [List.dropWhile] at h
  | cons a as ih =>
    intro c h
    by_cases ha : p a = true
    · rw [List.dropWhile_cons_of_pos ha] at h
      exact ih c h
    · rw [List.dropWhile_cons_of_neg ha] at h
      have : a = c := by simpa using h
      subst this
      simpa using ha

/-- Helper: taking 50 characters keeps the head. -/
theorem take50_head (l : List Char) : (l.take 50).head? = l.head? := by
  cases l <;> rfl

/-- C8: for every title, slugify returns a string of length at most 50
whose characters are lowercase letters, digits or hyphens, and which does
not begin with a hyphen. -/
theorem C8_slugify_invariants (title : String) :
    (slugify title).length ≤ 50 ∧
      (∀ c ∈ (slugify title).data,
        ('a' ≤ c ∧ c ≤ 'z') ∨ ('0' ≤ c ∧ c ≤ '9') ∨ c = '-') ∧
      (slugify title).data.head? ≠ some '-' := by
  have hdata : (slugify title).data =
      (rtrimHy ((collapseRuns ((stripTag title.data).map toLowerChar)
        false).dropWhile (fun c => c == '-'))).take 50 := rfl
  refine ⟨?_, ?_, ?_⟩
  · show (slugify title).data.length ≤ 50
    rw [hdata, List.length_take]
    exact min_le_left _ _
  · intro c hc
    rw [hdata] at hc
    have h1 := List.take_subset _ _ hc
    have h2 := rtrimHy_subset _ h1
    have h3 := (List.dropWhile_sublist _).subset h2
    rcases collapseRuns_chars _ false c h3 with h | h
    · simp only [alnumLower, Bool.or_eq_true, Bool.and_eq_true,
        decide_eq_true_eq] at h
      rcases h with h | h
      · exact Or.inl h
      · exact Or.inr (Or.inl h)
    · exact Or.inr (Or.inr h)
  · rw [hdata, take50_head]
    rcases rtrimHy_head ((collapseRuns ((stripTag title.data).map
        toLowerChar) false).dropWhile (fun c => c == '-')) with h | h
    · rw [h]
      simp
    · rw [h]
      intro hh
      have := dropWhile_head_not (fun c => c == '-') _ _ hh
      simp at this

end SlugifyTheorems

section VisualVerificationTheorems

/-- Helper: every character kept by takeWhile satisfies the predicate. -/
theorem mem_takeWhileP (p : Char → Bool) :
    ∀ (l : List Char), ∀ c ∈ l.takeWhile p, p c = true := by
  intro l
  induction l with
  | nil =>
    intro c h
    simp [List.takeWhile] at h
  | cons a as ih =>
    intro c h
    by_cases ha : p a = true
    · rw [List.takeWhile_cons_of_pos ha] at h
      rcases List.mem_cons.mp h with rfl | hm
      · exact ha
      · exact ih c hm
    · rw [List.takeWhile_cons_of_neg ha] at h
      simp at h

/-- Helper: a parsed route starts with a slash and has no whitespace. -/
theorem parseRouteLine_shape (l v : List Char)
    (h : parseRouteLine l = some v) :
    v.head? = some '/' ∧ ∀ c ∈ v, isSpaceC c = false := by
  unfold parseRouteLine at h
  split at h
  · split at h
    · split at h
      · split at h
        · injection h with h1
          subst h1
          refine ⟨rfl, ?_⟩
          intro e he
          rcases List.mem_cons.mp he with rfl | hm
          · decide
          · have := mem_takeWhileP (fun e => !isSpaceC e) _ e hm
            simpa using this
        · simp at h
      · simp at h
    · simp at h
  · simp at h

/-- Helper: a parsed note is nonempty and does not start with a slash. -/
theorem parseNoteLine_shape (l v : List Char)
    (h : parseNoteLine l = some v) :
    v ≠ [] ∧ v.head? ≠ some '/' := by
  unfold parseNoteLine at h
  by_cases h0 : (parseRouteLine l).isSome = true
  · rw [if_pos h0] at h
    simp at h
  · rw [if_neg h0] at h
    by_cases h1 : (trimC l).isEmpty = true
    · rw [if_pos h1] at h
      simp at h
    · rw [if_neg h1] at h
      by_cases h2 : ((trimC l).head? == some '#') = true
      · rw [if_pos h2] at h
        simp at h
      · rw [if_neg h2] at h
        by_cases h3 : (trimC (stripBullet l)).isEmpty = true
        · rw [if_pos h3] at h
          simp at h
        · rw [if_neg h3] at h
          by_cases h4 : ((trimC (stripBullet l)).head? == some '/') = true
          · rw [if_pos h4] at h
            simp at h
          · rw [if_neg h4] at h
            have hv : v = trimC (stripBullet l) := by
              injection h with h1
              exact h1.symm
            subst hv
            constructor
            · intro he
              exact h3 (by simp [he])
            · intro he
              exact h4 (by simp [he])

/-- C9: whenever parse_visual_verification returns a result, every route
begins with a slash and contains no whitespace, and every note is nonempty
and does not begin with a slash. -/
theorem C9_visual_verification_shape (body : String) (rs ns : List String)
    (h : parse_visual_verification body = some (rs, ns)) :
    (∀ r ∈ rs, r.data.head? = some '/' ∧ ∀ c ∈ r.data, isSpaceC c = false) ∧
      (∀ n ∈ ns, n ≠ "" ∧ n.data.head? ≠ some '/') := by
  simp only [parse_visual_verification] at h
  split at h
  · simp at h
  · split at h
    · simp at h
    · split at h
      · have h1 : rs = [] ∧ ns = [] := by
          injection h with h1
          injection h1 with ha hb2
          exact ⟨ha.symm, hb2.symm⟩
        rcases h1 with ⟨rfl, rfl⟩
        constructor
        · intro r hr
          simp at hr
        · intro n hn
          simp at hn
      · injection h with h1
        injection h1 with ha hb2
        subst ha
        subst hb2
        constructor
        · intro r hr
          rcases List.mem_map.mp hr with ⟨v, hv, rfl⟩
          rcases List.mem_filterMap.mp hv with ⟨line, _, hline⟩
          exact parseRouteLine_shape line v hline
        · intro n hn
          rcases List.mem_map.mp hn with ⟨v, hv, rfl⟩
          rcases List.mem_filterMap.mp hv with ⟨line, _, hline⟩
          have hs := parseNoteLine_shape line v hline
          refine ⟨?_, hs.2⟩
          intro h0
          exact hs.1 (congrArg String.data h0)

/-- Witness for C9 at a concrete issue body with a route and a note. -/
theorem C9_visual_verification_witness :
    parse_visual_verification
        "## Visual Verification\n- /editor - Editor page\n- REPL note\n" =
      some (["/editor"], ["REPL note"]) ∧
      ((∀ r ∈ (["/editor"] : List String), r.data.head? = some '/' ∧
          ∀ c ∈ r.data, isSpaceC c = false) ∧
        (∀ n ∈ (["REPL note"] : List String), n ≠ "" ∧
          n.data.head? ≠ some '/')) :=
  ⟨by decide,
    C9_visual_verification_shape
      "## Visual Verification\n- /editor - Editor page\n- REPL note\n"
      ["/editor"] ["REPL note"] (by decide)⟩

end VisualVerificationTheorems

section CategorizeTheorems

/-- Helper: the leading-run test holds exactly when the list extends the
candidate run. -/
theorem hasPre_exists : ∀ p l : List Char,
    hasPre p l = true ↔ ∃ t, l = p ++ t := by
  intro p
  induction p with
  | nil =>
    intro l
    simp [hasPre]
  | cons a as ih =>
    intro l
    cases l with
    | nil =>
      simp [hasPre]
    | cons c cs =>
      simp only [hasPre, Bool.and_eq_true, beq_iff_eq]
      constructor
      · rintro ⟨rfl, h2⟩
        rcases (ih cs).mp h2 with ⟨t, rfl⟩
        exact ⟨t, rfl⟩
      · rintro ⟨t, ht⟩
        injection ht with h1 h2
        exact ⟨h1.symm, (ih cs).mpr ⟨t, h2⟩⟩

/-- Helper: the substring test holds exactly when the list decomposes
around the candidate. -/
theorem containsSub_parts : ∀ l p : List Char,
    containsSub l p = true ↔ ∃ a b, l = a ++ p ++ b := by
  intro l
  induction l with
  | nil =>
    intro p
    have heq : containsSub [] p = (hasPre p [] || false) := rfl
    rw [heq]
    cases p with
    | nil =>
      constructor
      · intro _
        exact ⟨[], [], rfl⟩
      · intro _
        rfl
    | cons x xs =>
      simp [hasPre]
  | cons c cs ih =>
    intro p
    have heq : containsSub (c :: cs) p =
        (hasPre p (c :: cs) || containsSub cs p) := rfl
    rw [heq, Bool.or_eq_true]
    constructor
    · rintro (h | h)
      · rcases (hasPre_exists p (c :: cs)).mp h with ⟨t, ht⟩
        exact ⟨[], t, by simpa using ht⟩
      · rcases (ih p).mp h with ⟨a, b, rfl⟩
        exact ⟨c :: a, b, rfl⟩
    · rintro ⟨a, b, ha⟩
      cases a with
      | nil =>
        left
        exact (hasPre_exists p (c :: cs)).mpr ⟨b, by simpa using ha⟩
      | cons a0 as =>
        right
        injection ha with h1 h2
        exact (ih p).mpr ⟨as, b, h2⟩

/-- Helper: a substring occurrence survives a character map. -/
theorem containsSub_map (f : Char → Char) (l p : List Char)
    (h : containsSub l p = true) :
    containsSub (l.map f) (p.map f) = true := by
  rcases (containsSub_parts l p).mp h with ⟨a, b, rfl⟩
  exact (containsSub_parts _ _).mpr ⟨a.map f, b.map f, by simp⟩

/-- Helper: a substring occurrence yields a trailing run of the list that
starts with the candidate. -/
theorem containsSub_tail_run : ∀ l p : List Char,
    containsSub l p = true → ∃ s ∈ List.tails l, hasPre p s = true := by
  intro l
  induction l with
  | nil =>
    intro p h
    have heq : containsSub [] p = (hasPre p [] || false) := rfl
    rw [heq] at h
    exact ⟨[], by simp, by simpa using h⟩
  | cons c cs ih =>
    intro p h
    have heq : containsSub (c :: cs) p =
        (hasPre p (c :: cs) || containsSub cs p) := rfl
    rw [heq, Bool.or_eq_true] at h
    rcases h with h | h
    · exact ⟨c :: cs, by simp [List.tails_cons], h⟩
    · rcases ih p h with ⟨s, hs, hp⟩
      exact ⟨s, by simp only [List.tails_cons]; exact List.mem_cons_of_mem _ hs, hp⟩

/-- Helper: lowercasing never introduces a newline. -/
theorem toLowerChar_ne_nl (c : Char) (hc : c ≠ '\n') :
    toLowerChar c ≠ '\n' := by
  unfold toLowerChar
  rcases hf : upperLower.find? (fun p => p.1 == c) with _ | p
  · rw [hf]
    exact hc
  · rw [hf]
    have hp : p ∈ upperLower := List.mem_of_find?_eq_some hf
    have hall : ∀ q ∈ upperLower, q.2 ≠ '\n' := by decide
    exact hall p hp

/-- Helper: separator conversion never introduces a newline. -/
theorem sepC_ne_nl (c : Char) (hc : c ≠ '\n') : sepC c ≠ '\n' := by
  unfold sepC
  split
  · decide
  · exact hc

/-- Helper: mapping a newline-preserving function keeps a list free of
newlines. -/
theorem map_nl_free (f : Char → Char) (hf : ∀ c, c ≠ '\n' → f c ≠ '\n') :
    ∀ l : List Char, '\n' ∉ l → '\n' ∉ l.map f := by
  intro l hl hm
  rcases List.mem_map.mp hm with ⟨c, hcl, hc⟩
  by_cases h : c = '\n'
  · exact hl (h ▸ hcl)
  · exact hf c h hc

/-- Helper: the optional last element of a list is an element. -/
theorem getLast?_memH : ∀ (l : List Char) (c : Char),
    l.getLast? = some c → c ∈ l := by
  intro l
  induction l with
  | nil =>
    intro c h
    simp at h
  | cons a as ih =>
    intro c h
    cases as with
    | nil =>
      simp [List.getLast?] at h
      simp [h]
    | cons b bs =>
      rw [List.getLast?_cons_cons] at h
      exact List.mem_cons_of_mem _ (ih c h)

/-- Helper: a newline-free list is unchanged by final-newline removal. -/
theorem dropFinalNl_id {l : List Char} (h : '\n' ∉ l) :
    dropFinalNl l = l := by
  unfold dropFinalNl
  rw [if_neg]
  intro hb
  exact h (getLast?_memH l '\n' (by simpa using hb))

/-- Helper: a position is reachable from itself by a star. -/
theorem starTailsNl_self : ∀ l : List Char, l ∈ starTailsNl l := by
  intro l
  cases l with
  | nil => simp [starTailsNl]
  | cons c cs => simp [starTailsNl]

/-- Helper: the empty remainder is star-reachable from any newline-free
position. -/
theorem starTailsNl_nil_mem : ∀ l : List Char, '\n' ∉ l →
    [] ∈ starTailsNl l := by
  intro l
  induction l with
  | nil =>
    intro _
    simp [starTailsNl]
  | cons c cs ih =>
    intro h
    have hc : ¬ c = '\n' := fun hh => h (by simp [hh])
    simp only [starTailsNl, if_neg hc]
    exact List.mem_cons_of_mem _ (ih (fun hm => h (List.mem_cons_of_mem _ hm)))

/-- Helper: the tests-directory regex search succeeds on any newline-free
text containing the tests-directory segment. -/
theorem rsearch_testsDir {core : List Char}
    (hsub : containsSub core "__tests__/".data = true)
    (hnl : '\n' ∉ core) :
    rsearch patTestsDir core = true := by
  rcases containsSub_tail_run core _ hsub with ⟨s, hs, hp⟩
  have hnls : '\n' ∉ s := fun hm =>
    hnl ((List.mem_tails s core).mp hs |>.subset hm)
  unfold rsearch
  rw [List.any_eq_true]
  refine ⟨s, hs, ?_⟩
  have h1 : matchesFrom [.lit "__tests__/".data, .star] s = true := by
    have heq : matchesFrom [.lit "__tests__/".data, .star] s =
        (hasPre "__tests__/".data s &&
          matchesFrom [.star] (s.drop ("__tests__/".data).length)) := rfl
    rw [heq, Bool.and_eq_true]
    refine ⟨hp, ?_⟩
    have heq2 : matchesFrom ([.star] : List RAtom)
        (s.drop ("__tests__/".data).length) =
        (starTailsNl (s.drop ("__tests__/".data).length)).any
          (matchesFrom []) := rfl
    rw [heq2, List.any_eq_true]
    exact ⟨[], starTailsNl_nil_mem _
      (fun hm => hnls (List.drop_subset _ _ hm)), rfl⟩
  have heq3 : matchesFrom patTestsDir s =
      (starTailsNl s).any (matchesFrom [.lit "__tests__/".data, .star]) :=
    rfl
  rw [heq3, List.any_eq_true]
  exact ⟨s, starTailsNl_self s, h1⟩

/-- Helper: a first-match category comes from the pattern list. -/
theorem findSomeIf_snd_mem (core : List Char) :
    ∀ (L : List (List RAtom × String)) (c : String),
      (L.findSome? fun pc =>
        if rsearch pc.1 core then some pc.2 else none) = some c →
      c ∈ L.map Prod.snd := by
  intro L
  induction L with
  | nil =>
    intro c h
    simp [List.findSome?] at h
  | cons p ps ih =>
    intro c h
    by_cases hp : rsearch p.1 core = true
    · have heq : ((p :: ps).findSome? fun pc =>
          if rsearch pc.1 core then some pc.2 else none) = some p.2 := by
        rw [List.findSome?_cons]
        rw [if_pos hp]
      rw [heq] at h
      injection h with h1
      simp [h1]
    · have heq : ((p :: ps).findSome? fun pc =>
          if rsearch pc.1 core then some pc.2 else none) =
          (ps.findSome? fun pc =>
            if rsearch pc.1 core then some pc.2 else none) := by
        rw [List.findSome?_cons]
        rw [if_neg hp]
      rw [heq] at h
      exact List.mem_cons_of_mem _ (ih c h)

/-- C10 (amended): categorize_file returns none or one of the eight
category strings; and every path containing no newline whose forward-slash
form contains the tests-directory segment is categorized as test, the
first three patterns (the only ones that can match before the
tests-directory pattern) all carrying the test category. -/
theorem C10_categorize_range_and_tests :
    (∀ fp c : String, categorize_file fp = some c →
      c ∈ (["ui", "interaction", "visual", "page", "config", "test",
        "script", "docs"] : List String)) ∧
    (∀ fp : String, '\n' ∉ fp.data →
      containsSub (convSepC fp.data) "__tests__/".data = true →
      categorize_file fp = some "test") := by
  constructor
  · intro fp c h
    simp only [categorize_file] at h
    have hm := findSomeIf_snd_mem _ FILE_PATTERNS c h
    have hall : ∀ x ∈ FILE_PATTERNS.map Prod.snd,
        x ∈ (["ui", "interaction", "visual", "page", "config", "test",
          "script", "docs"] : List String) := by decide
    exact hall c hm
  · intro fp hnl hsub
    have hnl1 : '\n' ∉ convSepC fp.data :=
      map_nl_free sepC sepC_ne_nl fp.data hnl
    have hnl2 : '\n' ∉ (convSepC fp.data).map toLowerChar :=
      map_nl_free toLowerChar toLowerChar_ne_nl _ hnl1
    have hsub2 : containsSub ((convSepC fp.data).map toLowerChar)
        "__tests__/".data = true := by
      have hm := containsSub_map toLowerChar _ _ hsub
      rwa [show ("__tests__/".data).map toLowerChar = "__tests__/".data
        from by decide] at hm
    have hcore : dropFinalNl ((convSepC fp.data).map toLowerChar) =
        (convSepC fp.data).map toLowerChar := dropFinalNl_id hnl2
    have h3 : rsearch patTestsDir
        (dropFinalNl ((convSepC fp.data).map toLowerChar)) = true := by
      rw [hcore]
      exact rsearch_testsDir hsub2 hnl2
    simp only [categorize_file, FILE_PATTERNS]
    by_cases h1 : rsearch patTestFile
        (dropFinalNl ((convSepC fp.data).map toLowerChar)) = true
    · rw [List.findSome?_cons]
      rw [if_pos h1]
    · rw [List.findSome?_cons]
      rw [if_neg h1]
      by_cases h2 : rsearch patE2eFile
          (dropFinalNl ((convSepC fp.data).map toLowerChar)) = true
      · rw [List.findSome?_cons]
        rw [if_pos h2]
      · rw [List.findSome?_cons]
        rw [if_neg h2]
        rw [List.findSome?_cons]
        rw [if_pos h3]

/-- Counterexample to C10 as stated: this path contains the tests-directory
segment, but a newline later in the path defeats the dollar anchor of the
tests-directory regex, and the code returns none rather than test. -/
theorem C10_counterexample :
    containsSub (convSepC "x__tests__/a\nb".data) "__tests__/".data = true ∧
      categorize_file "x__tests__/a\nb" ≠ some "test" := by
  constructor
  · decide
  · decide

/-- Witness for C10 at a concrete newline-free path that only the
tests-directory pattern matches. -/
theorem C10_categorize_witness :
    ('\n' ∉ "src/__tests__/util.xyz".data) ∧
      containsSub (convSepC "src/__tests__/util.xyz".data)
        "__tests__/".data = true ∧
      categorize_file "src/__tests__/util.xyz" = some "test" :=
  ⟨by decide, by decide,
    C10_categorize_range_and_tests.2 "src/__tests__/util.xyz"
      (by decide) (by decide)⟩

end CategorizeTheorems
